import Mathlib

/-!
Verification of the floatpack streaming delta + adaptive bit-width codec
(`src/lib.rs`).

The codec is shallowly embedded: a Decimal is represented by its canonical
16-byte serialization (the code never inspects its numeric meaning, only the
byte layout), machine integers are `Nat` with explicit `% 2 ^ w` where overflow
matters, and the external `bitpacking` crate's `BitPacker8x` primitive
(`num_bits` / `compress` / `decompress` over batches of 256 u32 values) is
modelled by a concrete little-endian bit concatenation that satisfies the
contract the codec relies on: minimal lossless width, payload of
`bits * 256 / 8` bytes, and exact round trip.
-/

namespace Floatpack

/-- `splitNat bits k n` reads `k` successive `bits`-wide digits from `n`,
least significant first.  With `bits = 8` this is little-endian byte
serialization; with `bits = b` it is the unpacking direction of the bit-pack
primitive. -/
def splitNat (bits : Nat) : Nat → Nat → List Nat
  | 0, _ => []
  | k + 1, n => n % 2 ^ bits :: splitNat bits k (n / 2 ^ bits)

/-- `packNat bits xs` concatenates the elements of `xs` as `bits`-wide digits,
first element least significant.  Bits above the width are discarded, as a
fixed-width packer does. -/
def packNat (bits : Nat) : List Nat → Nat
  | [] => 0
  | v :: rest => v % 2 ^ bits + packNat bits rest * 2 ^ bits

/-- Width query of the bit-pack primitive: the minimal bit width that
losslessly represents every value of the batch (`BitPacker8x::num_bits`). -/
def numBits (xs : List Nat) : Nat := xs.foldr (fun v a => max (Nat.size v) a) 0

/-- `BitPacker8x::compress`: pack a 256-value batch at width `bits` into
`bits * 256 / 8` payload bytes. -/
def compress (xs : List Nat) (bits : Nat) : List Nat :=
  splitNat 8 (bits * 256 / 8) (packNat bits xs)

/-- `BitPacker8x::decompress`: recover the 256-value batch from the payload
bytes at width `bits`. -/
def decompress (bytes : List Nat) (bits : Nat) : List Nat :=
  splitNat bits 256 (packNat 8 bytes)

theorem splitNat_length (bits k n : Nat) : (splitNat bits k n).length = k := by
  induction k generalizing n with
  | zero => rfl
  | succ k ih => simp [splitNat, ih]

theorem mod_mul_decomp (n a b : Nat) : n % (a * b) = n % a + a * (n / a % b) := by
  conv_lhs => rw [← Nat.div_add_mod (n % (a * b)) a]
  rw [Nat.mod_mul_right_div_self, Nat.mod_mod_of_dvd n ⟨b, rfl⟩]
  ring

theorem packNat_splitNat (bits k n : Nat) :
    packNat bits (splitNat bits k n) = n % 2 ^ (bits * k) := by
  induction k generalizing n with
  | zero => simp [splitNat, packNat, Nat.mod_one]
  | succ k ih =>
    simp only [splitNat, packNat, ih]
    have h1 : n % 2 ^ bits % 2 ^ bits = n % 2 ^ bits := Nat.mod_mod_of_dvd n dvd_rfl
    have h2 : 2 ^ (bits * (k + 1)) = 2 ^ bits * 2 ^ (bits * k) := by
      rw [Nat.mul_succ, Nat.pow_add, Nat.mul_comm]
    rw [h1, h2, mod_mul_decomp n (2 ^ bits) (2 ^ (bits * k))]
    ring

theorem splitNat_packNat (bits : Nat) (xs : List Nat)
    (h : ∀ v ∈ xs, v < 2 ^ bits) :
    splitNat bits xs.length (packNat bits xs) = xs := by
  induction xs with
  | nil => rfl
  | cons v rest ih =>
    have hv : v < 2 ^ bits := h v (List.mem_cons_self ..)
    have hv' : v % 2 ^ bits = v := Nat.mod_eq_of_lt hv
    have hpos : 0 < 2 ^ bits := Nat.pos_pow_of_pos bits (by decide)
    simp only [List.length_cons, splitNat, packNat, hv']
    have e1 : (v + packNat bits rest * 2 ^ bits) % 2 ^ bits = v := by
      rw [Nat.add_mul_mod_self_right, hv']
    have e2 : (v + packNat bits rest * 2 ^ bits) / 2 ^ bits = packNat bits rest := by
      rw [Nat.add_mul_div_right _ _ hpos, Nat.div_eq_of_lt hv, Nat.zero_add]
    rw [e1, e2, ih fun w hw => h w (List.mem_cons_of_mem _ hw)]

theorem packNat_lt (bits : Nat) (xs : List Nat) :
    packNat bits xs < 2 ^ (bits * xs.length) := by
  induction xs with
  | nil => simp [packNat]
  | cons v rest ih =>
    have hpos : 0 < 2 ^ bits := Nat.pos_pow_of_pos bits (by decide)
    have hv : v % 2 ^ bits < 2 ^ bits := Nat.mod_lt _ hpos
    simp only [packNat, List.length_cons]
    have h2 : 2 ^ (bits * (rest.length + 1)) = 2 ^ bits * 2 ^ (bits * rest.length) := by
      rw [Nat.mul_succ, Nat.pow_add, Nat.mul_comm]
    rw [h2]
    calc v % 2 ^ bits + packNat bits rest * 2 ^ bits
        < 2 ^ bits + packNat bits rest * 2 ^ bits := Nat.add_lt_add_right hv _
      _ = (packNat bits rest + 1) * 2 ^ bits := by ring
      _ ≤ 2 ^ (bits * rest.length) * 2 ^ bits := Nat.mul_le_mul_right _ ih
      _ = 2 ^ bits * 2 ^ (bits * rest.length) := Nat.mul_comm _ _

theorem le_numBits (xs : List Nat) {v : Nat} (h : v ∈ xs) : Nat.size v ≤ numBits xs := by
  induction xs with
  | nil => cases h
  | cons w rest ih =>
    rcases List.mem_cons.mp h with rfl | h'
    · exact Nat.le_max_left _ _ |>.trans (Nat.le_refl _)
    · exact (ih h').trans (Nat.le_max_right _ _)

theorem lt_two_pow_numBits (xs : List Nat) {v : Nat} (h : v ∈ xs) :
    v < 2 ^ numBits xs :=
  Nat.size_le.mp (le_numBits xs h)

/-- The bit-pack primitive round trip on full 256-value batches at the
minimal width reported by `numBits`. -/
theorem decompress_compress (xs : List Nat) (hlen : xs.length = 256) :
    decompress (compress xs (numBits xs)) (numBits xs) = xs := by
  set bits := numBits xs with hb
  have hmem : ∀ v ∈ xs, v < 2 ^ bits := fun v hv => lt_two_pow_numBits xs hv
  have hlt : packNat bits xs < 2 ^ (8 * (bits * 256 / 8)) := by
    have := packNat_lt bits xs
    rw [hlen] at this
    have harith : 8 * (bits * 256 / 8) = bits * 256 := by omega
    rw [harith]
    exact this
  unfold decompress compress
  rw [packNat_splitNat, Nat.mod_eq_of_lt hlt, ← hlen, splitNat_packNat bits xs hmem]

/-- The canonical 16-byte serialization of a `rust_decimal::Decimal`.  The
codec treats Decimals as opaque 16-byte values. -/
structure Bytes16 where
  b0 : Nat
  b1 : Nat
  b2 : Nat
  b3 : Nat
  b4 : Nat
  b5 : Nat
  b6 : Nat
  b7 : Nat
  b8 : Nat
  b9 : Nat
  b10 : Nat
  b11 : Nat
  b12 : Nat
  b13 : Nat
  b14 : Nat
  b15 : Nat
deriving DecidableEq

/-- The four 32-bit lanes of one decimal (`[u32; 4]`). -/
structure Lanes4 where
  l0 : Nat
  l1 : Nat
  l2 : Nat
  l3 : Nat
deriving DecidableEq

/-- Every byte is in range (the 16-byte domain). -/
def validBytes (v : Bytes16) : Prop :=
  v.b0 < 256 ∧ v.b1 < 256 ∧ v.b2 < 256 ∧ v.b3 < 256 ∧
  v.b4 < 256 ∧ v.b5 < 256 ∧ v.b6 < 256 ∧ v.b7 < 256 ∧
  v.b8 < 256 ∧ v.b9 < 256 ∧ v.b10 < 256 ∧ v.b11 < 256 ∧
  v.b12 < 256 ∧ v.b13 < 256 ∧ v.b14 < 256 ∧ v.b15 < 256

instance (v : Bytes16) : Decidable (validBytes v) := by
  unfold validBytes; infer_instance

/-- Every lane fits in 32 bits. -/
def validLanes (l : Lanes4) : Prop :=
  l.l0 < 2 ^ 32 ∧ l.l1 < 2 ^ 32 ∧ l.l2 < 2 ^ 32 ∧ l.l3 < 2 ^ 32

instance (l : Lanes4) : Decidable (validLanes l) := by
  unfold validLanes; infer_instance

/-- `u32::from_be_bytes([a, b, c, d])`. -/
def fromBeBytes (a b c d : Nat) : Nat := ((a * 256 + b) * 256 + c) * 256 + d

/-- `u32::from_le_bytes([a, b, c, d])`. -/
def fromLeBytes (a b c d : Nat) : Nat := ((d * 256 + c) * 256 + b) * 256 + a

/-- `zip_u8`: split a decimal's 16 bytes into four 32-bit lanes.  Lane 0 is
read big-endian from bytes 0..3, lanes 1..3 little-endian from bytes 4..15,
exactly as in the source. -/
def zip_u8 (v : Bytes16) : Lanes4 :=
  ⟨fromBeBytes v.b0 v.b1 v.b2 v.b3,
   fromLeBytes v.b4 v.b5 v.b6 v.b7,
   fromLeBytes v.b8 v.b9 v.b10 v.b11,
   fromLeBytes v.b12 v.b13 v.b14 v.b15⟩

/-- `unzip_u8`: rejoin four 32-bit lanes into the 16-byte layout, the exact
inverse byte placement of `zip_u8` (`to_be_bytes` for lane 0, `to_le_bytes`
for lanes 1..3). -/
def unzip_u8 (l : Lanes4) : Bytes16 :=
  ⟨l.l0 / 16777216 % 256, l.l0 / 65536 % 256, l.l0 / 256 % 256, l.l0 % 256,
   l.l1 % 256, l.l1 / 256 % 256, l.l1 / 65536 % 256, l.l1 / 16777216 % 256,
   l.l2 % 256, l.l2 / 256 % 256, l.l2 / 65536 % 256, l.l2 / 16777216 % 256,
   l.l3 % 256, l.l3 / 256 % 256, l.l3 / 65536 % 256, l.l3 / 16777216 % 256⟩

theorem unzip_zip (v : Bytes16) (h : validBytes v) : unzip_u8 (zip_u8 v) = v := by
  cases v
  simp only [validBytes] at h
  obtain ⟨h0, h1, h2, h3, h4, h5, h6, h7, h8, h9, h10, h11, h12, h13, h14, h15⟩ := h
  simp only [zip_u8, unzip_u8, fromBeBytes, fromLeBytes, Bytes16.mk.injEq]
  refine ⟨?_, ?_, ?_, ?_, ?_, ?_, ?_, ?_, ?_, ?_, ?_, ?_, ?_, ?_, ?_, ?_⟩ <;> omega

theorem zip_unzip (l : Lanes4) (h : validLanes l) : zip_u8 (unzip_u8 l) = l := by
  cases l
  simp only [validLanes] at h
  obtain ⟨h0, h1, h2, h3⟩ := h
  simp only [zip_u8, unzip_u8, fromBeBytes, fromLeBytes, Lanes4.mk.injEq]
  refine ⟨?_, ?_, ?_, ?_⟩ <;> omega

theorem validLanes_zip (v : Bytes16) (h : validBytes v) : validLanes (zip_u8 v) := by
  cases v
  simp only [validBytes] at h
  obtain ⟨h0, h1, h2, h3, h4, h5, h6, h7, h8, h9, h10, h11, h12, h13, h14, h15⟩ := h
  refine ⟨?_, ?_, ?_, ?_⟩ <;> simp only [zip_u8, fromBeBytes, fromLeBytes] <;> omega

/-- Componentwise XOR of the four lanes (the per-lane `parsed[i] ^ last[i]`). -/
def xor4 (a b : Lanes4) : Lanes4 :=
  ⟨a.l0 ^^^ b.l0, a.l1 ^^^ b.l1, a.l2 ^^^ b.l2, a.l3 ^^^ b.l3⟩

/-- One compressed block for one lane of one chunk
(`Block { bits: u8, head: u32, vals: Vec<u8> }`). -/
structure Block where
  bits : Nat
  head : Nat
  vals : List Nat
deriving DecidableEq

/-- The per-chunk accumulator (`struct Cache`).  The source holds
`compressed: [[u32; 256]; 4]` plus a write cursor `idx`; since the four lane
arrays are always written together at position `idx`, which equals the number
of deltas written so far, the written prefix is represented as one list of
lane 4-tuples (`idx = compressed.length`), and the zero-initialized unwritten
slots are made explicit when a block is packed. -/
structure Cache where
  buffer : Option Lanes4
  head : Lanes4
  compressed : List Lanes4
deriving DecidableEq

/-- `Cache::default()`: no previous value, zeroed head, no deltas written. -/
def Cache.default : Cache := ⟨none, ⟨0, 0, 0, 0⟩, []⟩

/-- The cache update inside `Packer::load_decimal`: on the first value of a
chunk record the head, otherwise append the XOR delta against the previous
value; always remember the value just seen. -/
def Cache.ingest (c : Cache) (parsed : Lanes4) : Cache :=
  match c.buffer with
  | some last => ⟨some parsed, c.head, c.compressed ++ [xor4 parsed last]⟩
  | none => ⟨some parsed, parsed, c.compressed⟩

/-- The encoded artifact (`PackedDecimals = ([Vec<Block>; 4], usize)`):
four index-aligned lane block lists plus the total decimal count. -/
structure PackedDecimals where
  blocks0 : List Block
  blocks1 : List Block
  blocks2 : List Block
  blocks3 : List Block
  count : Nat
deriving DecidableEq

/-- The streaming encoder (`struct Packer`).  The (stateless) `BitPacker8x`
field is not represented. -/
structure Packer where
  cache : Cache
  packed : PackedDecimals
  trim : Bool
deriving DecidableEq

/-- `Packer::new()`. -/
def Packer.new : Packer := ⟨Cache.default, ⟨[], [], [], [], 0⟩, true⟩

/-- `Packer::with_trim`. -/
def Packer.with_trim (p : Packer) (trim : Bool) : Packer := { p with trim := trim }

/-- The per-lane body of `Packer::pack`: pad the written deltas with the
zero-initialized remainder of the 256-slot buffer, query the minimal width,
compress at that width, and emit the block. -/
def flushBlock (hd : Nat) (deltas : List Nat) : Block :=
  let slots := deltas ++ List.replicate (256 - deltas.length) 0
  let bits := numBits slots
  ⟨bits, hd, compress slots bits⟩

/-- `Packer::pack`: flush the current chunk.  A cache that never saw a value
(`buffer.is_none()`) is skipped entirely; otherwise each lane emits one block,
`total_count` grows by `idx + 1` (deltas written plus the head), and the cache
is reset. -/
def Packer.pack (p : Packer) : Packer :=
  match p.cache.buffer with
  | none => p
  | some _ =>
    { cache := Cache.default,
      packed :=
        { blocks0 := p.packed.blocks0 ++ [flushBlock p.cache.head.l0 (p.cache.compressed.map Lanes4.l0)],
          blocks1 := p.packed.blocks1 ++ [flushBlock p.cache.head.l1 (p.cache.compressed.map Lanes4.l1)],
          blocks2 := p.packed.blocks2 ++ [flushBlock p.cache.head.l2 (p.cache.compressed.map Lanes4.l2)],
          blocks3 := p.packed.blocks3 ++ [flushBlock p.cache.head.l3 (p.cache.compressed.map Lanes4.l3)],
          count := p.packed.count + p.cache.compressed.length + 1 },
      trim := p.trim }

/-- `Packer::load_decimal`: split the decimal into lanes, update the cache,
and flush when the delta buffer is full (`idx == BitPacker8x::BLOCK_LEN`). -/
def Packer.load_decimal (p : Packer) (value : Bytes16) : Packer :=
  let parsed := zip_u8 value
  let c := p.cache.ingest parsed
  let p1 : Packer := { p with cache := c }
  if c.compressed.length = 256 then p1.pack else p1

/-- Loading a whole sequence (the loop of the free function `pack`). -/
def runLoad (values : List Bytes16) (p : Packer) : Packer :=
  values.foldl Packer.load_decimal p

/-- The free function `pack`: load every decimal, flush the trailing partial
chunk, return the packed artifact. -/
def pack (values : List Bytes16) : PackedDecimals :=
  ((runLoad values Packer.new).pack).packed

/-- The running-XOR reconstruction loop of `unpack`:
`last ^= v; push(last)` for each recovered delta. -/
def xorScan (last : Nat) : List Nat → List Nat
  | [] => []
  | v :: rest => (last ^^^ v) :: xorScan (last ^^^ v) rest

/-- Decoding one block of one lane: push the raw head, then the cumulative
XORs of the 256 recovered deltas. -/
def unpackBlock (b : Block) : List Nat :=
  b.head :: xorScan b.head (decompress b.vals b.bits)

/-- Decoding one lane list: blocks in list order, appended into one
accumulator (`unpacked[i]`). -/
def unpackLane (blocks : List Block) : List Nat :=
  blocks.foldl (fun acc b => acc ++ unpackBlock b) []

/-- The final loop of `unpack`: for `i in 0..total_count`, join the four lane
values at position `i`.  The source indexes `unpacked[j][i]`, which panics
when a lane accumulator is shorter than `total_count`; indexing is modelled by
walking the four accumulators in lock-step, and the panic by `none`. -/
def unpackRows : Nat → List Nat → List Nat → List Nat → List Nat → Option (List Bytes16)
  | 0, _, _, _, _ => some []
  | n + 1, a :: t0, b :: t1, c :: t2, d :: t3 =>
    (unpackRows n t0 t1 t2 t3).map (fun rest => unzip_u8 ⟨a, b, c, d⟩ :: rest)
  | _ + 1, _, _, _, _ => none

/-- The free function `unpack`: reconstruct the four lane sequences and join
the first `total_count` positions back into decimals. -/
def unpack (values : PackedDecimals) : Option (List Bytes16) :=
  unpackRows values.count (unpackLane values.blocks0) (unpackLane values.blocks1)
    (unpackLane values.blocks2) (unpackLane values.blocks3)

/-- `Packer::unload`: decode the currently packed blocks. -/
def Packer.unload (p : Packer) : Option (List Bytes16) :=
  unpack p.packed

/-! ### Reference descriptions of reachable states

`natDeltas prev xs` is the sequence of XOR deltas of consecutive values of
`prev :: xs`; `deltasFrom` is the same on lane 4-tuples; `cacheOf zs` is the
cache state after ingesting exactly the lane values `zs` since the last
reset. -/

def natDeltas (prev : Nat) : List Nat → List Nat
  | [] => []
  | v :: rest => (v ^^^ prev) :: natDeltas v rest

def deltasFrom (prev : Lanes4) : List Lanes4 → List Lanes4
  | [] => []
  | v :: rest => xor4 v prev :: deltasFrom v rest

def cacheOf : List Lanes4 → Cache
  | [] => Cache.default
  | h :: t => ⟨some (t.getLastD h), h, deltasFrom h t⟩

/-- The block emitted for one lane when flushing a chunk whose ingested lane
values were `zs`. -/
def chunkBlock (f : Lanes4 → Nat) : List Lanes4 → Block
  | [] => flushBlock 0 []
  | z :: t => flushBlock (f z) ((deltasFrom z t).map f)

theorem xorScan_length (l : Nat) (xs : List Nat) : (xorScan l xs).length = xs.length := by
  induction xs generalizing l with
  | nil => rfl
  | cons v rest ih => simp [xorScan, ih]

theorem natDeltas_length (p : Nat) (xs : List Nat) : (natDeltas p xs).length = xs.length := by
  induction xs generalizing p with
  | nil => rfl
  | cons v rest ih => simp [natDeltas, ih]

theorem deltasFrom_length (p : Lanes4) (xs : List Lanes4) :
    (deltasFrom p xs).length = xs.length := by
  induction xs generalizing p with
  | nil => rfl
  | cons v rest ih => simp [deltasFrom, ih]

theorem xor_cancel (l v : Nat) : l ^^^ (v ^^^ l) = v := by
  rw [Nat.xor_comm v l, ← Nat.xor_assoc, Nat.xor_self, Nat.zero_xor]

theorem xorScan_natDeltas (l : Nat) (xs : List Nat) : xorScan l (natDeltas l xs) = xs := by
  induction xs generalizing l with
  | nil => rfl
  | cons v rest ih => simp [natDeltas, xorScan, xor_cancel, ih]

theorem xorScan_append (l : Nat) (xs ys : List Nat) :
    xorScan l (xs ++ ys) = xorScan l xs ++ xorScan ((xorScan l xs).getLastD l) ys := by
  induction xs generalizing l with
  | nil => rfl
  | cons v rest ih => simp only [List.cons_append, List.append_eq, xorScan, ih, List.getLastD_cons]

theorem xorScan_replicate_zero (l : Nat) (m : Nat) :
    xorScan l (List.replicate m 0) = List.replicate m l := by
  induction m with
  | zero => rfl
  | succ m ih => simp [List.replicate_succ, xorScan, Nat.xor_zero, ih]

theorem getLastD_map (f : Lanes4 → Nat) (xs : List Lanes4) (d : Lanes4) :
    (xs.map f).getLastD (f d) = f (xs.getLastD d) := by
  induction xs generalizing d with
  | nil => rfl
  | cons v rest ih => simp only [List.map_cons, List.getLastD_cons, ih]

theorem map_deltasFrom (f : Lanes4 → Nat) (hf : ∀ a b, f (xor4 a b) = f a ^^^ f b)
    (p : Lanes4) (xs : List Lanes4) :
    (deltasFrom p xs).map f = natDeltas (f p) (xs.map f) := by
  induction xs generalizing p with
  | nil => rfl
  | cons v rest ih => simp [deltasFrom, natDeltas, hf, ih]

theorem deltasFrom_append_one (b y : Lanes4) (xs : List Lanes4) :
    deltasFrom b (xs ++ [y]) = deltasFrom b xs ++ [xor4 y (xs.getLastD b)] := by
  induction xs generalizing b with
  | nil => rfl
  | cons v rest ih => simp only [List.cons_append, List.append_eq, deltasFrom, List.getLastD_cons, ih]

theorem getLastD_natDeltas (l : Nat) (xs : List Nat) :
    (xorScan l (natDeltas l xs)).getLastD l = xs.getLastD l := by
  rw [xorScan_natDeltas]

/-! ### Step equations for the packer -/

theorem pack_mk (b z : Lanes4) (ds : List Lanes4) (pk : PackedDecimals) (tr : Bool) :
    Packer.pack ⟨⟨some b, z, ds⟩, pk, tr⟩ =
      ⟨Cache.default,
       ⟨pk.blocks0 ++ [flushBlock z.l0 (ds.map Lanes4.l0)],
        pk.blocks1 ++ [flushBlock z.l1 (ds.map Lanes4.l1)],
        pk.blocks2 ++ [flushBlock z.l2 (ds.map Lanes4.l2)],
        pk.blocks3 ++ [flushBlock z.l3 (ds.map Lanes4.l3)],
        pk.count + ds.length + 1⟩,
       tr⟩ := rfl

theorem pack_none (z : Lanes4) (ds : List Lanes4) (pk : PackedDecimals) (tr : Bool) :
    Packer.pack ⟨⟨none, z, ds⟩, pk, tr⟩ = ⟨⟨none, z, ds⟩, pk, tr⟩ := rfl

theorem load_first (hh : Lanes4) (pk : PackedDecimals) (tr : Bool) (v : Bytes16) :
    Packer.load_decimal ⟨⟨none, hh, []⟩, pk, tr⟩ v =
      ⟨⟨some (zip_u8 v), zip_u8 v, []⟩, pk, tr⟩ := rfl

theorem load_step (b hh : Lanes4) (ds : List Lanes4) (pk : PackedDecimals) (tr : Bool)
    (v : Bytes16) (hlen : ds.length + 1 ≠ 256) :
    Packer.load_decimal ⟨⟨some b, hh, ds⟩, pk, tr⟩ v =
      ⟨⟨some (zip_u8 v), hh, ds ++ [xor4 (zip_u8 v) b]⟩, pk, tr⟩ := by
  simp only [Packer.load_decimal, Cache.ingest, List.length_append, List.length_cons,
    List.length_nil, Nat.zero_add, if_neg hlen]

theorem load_flush (b hh : Lanes4) (ds : List Lanes4) (pk : PackedDecimals) (tr : Bool)
    (v : Bytes16) (hlen : ds.length + 1 = 256) :
    Packer.load_decimal ⟨⟨some b, hh, ds⟩, pk, tr⟩ v =
      Packer.pack ⟨⟨some (zip_u8 v), hh, ds ++ [xor4 (zip_u8 v) b]⟩, pk, tr⟩ := by
  simp only [Packer.load_decimal, Cache.ingest, List.length_append, List.length_cons,
    List.length_nil, Nat.zero_add, if_pos hlen]

theorem runLoad_nil (p : Packer) : runLoad [] p = p := rfl

theorem runLoad_cons (v : Bytes16) (vs : List Bytes16) (p : Packer) :
    runLoad (v :: vs) p = runLoad vs (p.load_decimal v) := rfl

theorem runLoad_append (xs ys : List Bytes16) (p : Packer) :
    runLoad (xs ++ ys) p = runLoad ys (runLoad xs p) :=
  List.foldl_append ..

/-- Running a tail of at most `255 - ds.length` further values inside one
chunk: no flush fires, the deltas accumulate, the head stays. -/
theorem runLoad_chunk (t : List Bytes16) : ∀ (b hh : Lanes4) (ds : List Lanes4)
    (pk : PackedDecimals) (tr : Bool), ds.length + t.length ≤ 255 →
    runLoad t ⟨⟨some b, hh, ds⟩, pk, tr⟩ =
      ⟨⟨some ((t.map zip_u8).getLastD b), hh, ds ++ deltasFrom b (t.map zip_u8)⟩, pk, tr⟩ := by
  induction t with
  | nil =>
    intro b hh ds pk tr _
    simp [runLoad_nil, deltasFrom]
  | cons v t' ih =>
    intro b hh ds pk tr hle
    simp only [List.length_cons] at hle
    rw [runLoad_cons, load_step b hh ds pk tr v (by omega)]
    rw [ih (zip_u8 v) hh (ds ++ [xor4 (zip_u8 v) b]) pk tr (by simp; omega)]
    simp only [List.map_cons, List.getLastD_cons, deltasFrom, List.append_assoc,
      List.singleton_append]

/-- Loading at most 256 values into a fresh chunk leaves exactly the cache
state `cacheOf` of those values and touches nothing else. -/
theorem runLoad_small (xs : List Bytes16) (pk : PackedDecimals) (tr : Bool)
    (h : xs.length ≤ 256) :
    runLoad xs ⟨Cache.default, pk, tr⟩ = ⟨cacheOf (xs.map zip_u8), pk, tr⟩ := by
  cases xs with
  | nil => rfl
  | cons v t =>
    simp only [List.length_cons] at h
    rw [show (⟨Cache.default, pk, tr⟩ : Packer) = ⟨⟨none, ⟨0, 0, 0, 0⟩, []⟩, pk, tr⟩ from rfl,
      runLoad_cons, load_first,
      runLoad_chunk t (zip_u8 v) (zip_u8 v) [] pk tr (by simp only [List.length_nil]; omega)]
    simp only [List.nil_append, List.map_cons, cacheOf]

/-- Loading exactly 257 values into a fresh chunk triggers the flush on the
last value: one block is appended per lane and the count grows by 257. -/
theorem runLoad_full_chunk (c : List Bytes16) (pk : PackedDecimals) (tr : Bool)
    (h : c.length = 257) :
    runLoad c ⟨Cache.default, pk, tr⟩ =
      ⟨Cache.default,
       ⟨pk.blocks0 ++ [chunkBlock Lanes4.l0 (c.map zip_u8)],
        pk.blocks1 ++ [chunkBlock Lanes4.l1 (c.map zip_u8)],
        pk.blocks2 ++ [chunkBlock Lanes4.l2 (c.map zip_u8)],
        pk.blocks3 ++ [chunkBlock Lanes4.l3 (c.map zip_u8)],
        pk.count + 257⟩,
       tr⟩ := by
  cases c with
  | nil => simp at h
  | cons v t =>
    simp only [List.length_cons] at h
    have ht : t.length = 256 := by omega
    rcases t.eq_nil_or_concat with rfl | ⟨t', w, rfl⟩
    · simp at ht
    simp only [List.concat_eq_append] at ht ⊢
    have ht' : t'.length = 255 := by
      simp only [List.length_append, List.length_cons, List.length_nil] at ht
      omega
    rw [show (⟨Cache.default, pk, tr⟩ : Packer) = ⟨⟨none, ⟨0, 0, 0, 0⟩, []⟩, pk, tr⟩ from rfl,
      runLoad_cons, load_first, runLoad_append,
      runLoad_chunk t' (zip_u8 v) (zip_u8 v) [] pk tr (by simp [ht'])]
    simp only [List.nil_append]
    rw [runLoad_cons, runLoad_nil,
      load_flush _ _ _ _ _ w (by rw [deltasFrom_length]; simp [ht']),
      ← deltasFrom_append_one, pack_mk]
    have hdlen : (deltasFrom (zip_u8 v) (List.map zip_u8 t' ++ [zip_u8 w])).length = 256 := by
      rw [deltasFrom_length]
      simp [ht']
    simp only [Packer.mk.injEq, PackedDecimals.mk.injEq, chunkBlock, List.map_cons,
      List.map_append, List.map_nil, hdlen]

/-! ### Decoding the emitted blocks -/

theorem unpackBlock_flushBlock (hd : Nat) (ds : List Nat) (h : ds.length ≤ 256) :
    unpackBlock (flushBlock hd ds) =
      hd :: xorScan hd (ds ++ List.replicate (256 - ds.length) 0) := by
  have hslots : (ds ++ List.replicate (256 - ds.length) 0).length = 256 := by
    simp only [List.length_append, List.length_replicate]
    omega
  simp only [unpackBlock, flushBlock, decompress_compress _ hslots]

/-- Decoding the block of a flushed chunk whose ingested lane values were
`(z :: t).map f`: the original values come back, followed by padding slots
that all decode to the last real value. -/
theorem unpackBlock_chunk (f : Lanes4 → Nat) (hf : ∀ a b, f (xor4 a b) = f a ^^^ f b)
    (z : Lanes4) (t : List Lanes4) (h : t.length ≤ 256) :
    unpackBlock (chunkBlock f (z :: t)) =
      (f z :: t.map f) ++ List.replicate (256 - t.length) ((t.map f).getLastD (f z)) := by
  have hlen : ((deltasFrom z t).map f).length = t.length := by
    simp [deltasFrom_length]
  rw [chunkBlock, unpackBlock_flushBlock _ _ (by omega), map_deltasFrom f hf,
    xorScan_append, xorScan_natDeltas]
  simp only [natDeltas_length, List.length_map, xorScan_replicate_zero, List.cons_append]

theorem unpackLane_nil : unpackLane [] = [] := rfl

theorem unpackLane_go (bs : List Block) : ∀ acc : List Nat,
    bs.foldl (fun a b => a ++ unpackBlock b) acc = acc ++ unpackLane bs := by
  induction bs with
  | nil => intro acc; simp [unpackLane]
  | cons b rest ih =>
    intro acc
    rw [List.foldl_cons, ih]
    conv_rhs => rw [unpackLane, List.foldl_cons, ih]
    simp [List.append_assoc]

theorem unpackLane_cons (b : Block) (bs : List Block) :
    unpackLane (b :: bs) = unpackBlock b ++ unpackLane bs := by
  rw [unpackLane, List.foldl_cons, unpackLane_go, List.nil_append]

theorem unpackLane_append (xs ys : List Block) :
    unpackLane (xs ++ ys) = unpackLane xs ++ unpackLane ys := by
  induction xs with
  | nil => simp [unpackLane_nil]
  | cons b rest ih => simp [unpackLane_cons, ih, List.append_assoc]

theorem unpackBlock_length (b : Block) : (unpackBlock b).length = 257 := by
  simp [unpackBlock, xorScan_length, decompress, splitNat_length]

theorem unpackLane_length (bs : List Block) : (unpackLane bs).length = 257 * bs.length := by
  induction bs with
  | nil => rfl
  | cons b rest ih =>
    simp only [unpackLane_cons, List.length_append, unpackBlock_length, ih, List.length_cons]
    ring

/-! ### The row-joining loop -/

theorem unpackRows_exact (values : List Bytes16) (hv : ∀ b ∈ values, validBytes b) :
    ∀ g0 g1 g2 g3 : List Nat,
    unpackRows values.length
      (values.map (fun v => (zip_u8 v).l0) ++ g0)
      (values.map (fun v => (zip_u8 v).l1) ++ g1)
      (values.map (fun v => (zip_u8 v).l2) ++ g2)
      (values.map (fun v => (zip_u8 v).l3) ++ g3) = some values := by
  induction values with
  | nil => intro g0 g1 g2 g3; rfl
  | cons v vs ih =>
    intro g0 g1 g2 g3
    have hvv : validBytes v := hv v (List.mem_cons_self ..)
    have hvs : ∀ b ∈ vs, validBytes b := fun b hb => hv b (List.mem_cons_of_mem _ hb)
    simp only [List.map_cons, List.cons_append, List.length_cons, unpackRows,
      List.append_eq]
    rw [ih hvs g0 g1 g2 g3]
    simp only [Option.map_some']
    have he : (⟨(zip_u8 v).l0, (zip_u8 v).l1, (zip_u8 v).l2, (zip_u8 v).l3⟩ : Lanes4)
        = zip_u8 v := rfl
    rw [he, unzip_zip v hvv]

theorem unpackRows_isSome (n : Nat) : ∀ u0 u1 u2 u3 : List Nat,
    (unpackRows n u0 u1 u2 u3).isSome ↔
      n ≤ u0.length ∧ n ≤ u1.length ∧ n ≤ u2.length ∧ n ≤ u3.length := by
  induction n with
  | zero => intro u0 u1 u2 u3; simp [unpackRows]
  | succ n ih =>
    intro u0 u1 u2 u3
    cases u0 with
    | nil => simp [unpackRows]
    | cons a t0 =>
      cases u1 with
      | nil => simp [unpackRows]
      | cons b t1 =>
        cases u2 with
        | nil => simp [unpackRows]
        | cons c t2 =>
          cases u3 with
          | nil => simp [unpackRows]
          | cons d t3 =>
            simp only [unpackRows, Option.isSome_map', ih, List.length_cons]
            omega

theorem unpackRows_length (n : Nat) : ∀ (u0 u1 u2 u3 : List Nat) (xs : List Bytes16),
    unpackRows n u0 u1 u2 u3 = some xs → xs.length = n := by
  induction n with
  | zero =>
    intro u0 u1 u2 u3 xs h
    simp only [unpackRows, Option.some.injEq] at h
    simp [← h]
  | succ n ih =>
    intro u0 u1 u2 u3 xs h
    cases u0 with
    | nil => simp [unpackRows] at h
    | cons a t0 =>
      cases u1 with
      | nil => simp [unpackRows] at h
      | cons b t1 =>
        cases u2 with
        | nil => simp [unpackRows] at h
        | cons c t2 =>
          cases u3 with
          | nil => simp [unpackRows] at h
          | cons d t3 =>
            simp only [unpackRows, Option.map_eq_some'] at h
            obtain ⟨rest, hrest, rfl⟩ := h
            simp [ih t0 t1 t2 t3 rest hrest]

theorem take_add_split {α : Type} : ∀ (m n : Nat) (l : List α),
    l.take (m + n) = l.take m ++ (l.drop m).take n := by
  intro m
  induction m with
  | zero => intro n l; simp
  | succ m ih =>
    intro n l
    cases l with
    | nil => simp
    | cons a t =>
      rw [Nat.succ_add, List.take_succ_cons, List.take_succ_cons, List.drop_succ_cons,
        List.cons_append, ih n t]

/-- Decoding the block of a full flushed chunk (257 ingested values): the
values come back exactly, with no padding. -/
theorem unpackBlock_chunk_full (f : Lanes4 → Nat) (hf : ∀ a b, f (xor4 a b) = f a ^^^ f b)
    (zs : List Lanes4) (h : zs.length = 257) :
    unpackBlock (chunkBlock f zs) = zs.map f := by
  cases zs with
  | nil => simp at h
  | cons z t =>
    simp only [List.length_cons] at h
    have ht : t.length = 256 := by omega
    rw [unpackBlock_chunk f hf z t (by omega)]
    simp [ht]

/-- Lane projections commute with `xor4`. -/
theorem l0_xor4 (a b : Lanes4) : Lanes4.l0 (xor4 a b) = a.l0 ^^^ b.l0 := rfl

theorem l1_xor4 (a b : Lanes4) : Lanes4.l1 (xor4 a b) = a.l1 ^^^ b.l1 := rfl

theorem l2_xor4 (a b : Lanes4) : Lanes4.l2 (xor4 a b) = a.l2 ^^^ b.l2 := rfl

theorem l3_xor4 (a b : Lanes4) : Lanes4.l3 (xor4 a b) = a.l3 ^^^ b.l3 := rfl

/-- The central invariant of the streaming encoder, by strong induction on
the input length: after loading `xs` from a fresh chunk, some number `k` of
full 257-value chunks have been flushed (one block per lane each, decoding
exactly to the flushed values), the remaining at most 256 values sit in the
cache, and `total_count` grew by `257 * k`. -/
theorem runLoad_spec (n : Nat) : ∀ (xs : List Bytes16) (pk : PackedDecimals) (tr : Bool),
    xs.length = n →
    ∃ (k : Nat) (n0 n1 n2 n3 : List Block),
      257 * k ≤ xs.length ∧ xs.length - 257 * k ≤ 256 ∧
      runLoad xs ⟨Cache.default, pk, tr⟩ =
        ⟨cacheOf ((xs.drop (257 * k)).map zip_u8),
         ⟨pk.blocks0 ++ n0, pk.blocks1 ++ n1, pk.blocks2 ++ n2, pk.blocks3 ++ n3,
          pk.count + 257 * k⟩, tr⟩ ∧
      n0.length = k ∧ n1.length = k ∧ n2.length = k ∧ n3.length = k ∧
      unpackLane n0 = (xs.take (257 * k)).map (fun v => (zip_u8 v).l0) ∧
      unpackLane n1 = (xs.take (257 * k)).map (fun v => (zip_u8 v).l1) ∧
      unpackLane n2 = (xs.take (257 * k)).map (fun v => (zip_u8 v).l2) ∧
      unpackLane n3 = (xs.take (257 * k)).map (fun v => (zip_u8 v).l3) := by
  induction n using Nat.strong_induction_on with
  | _ n ih =>
    intro xs pk tr hn
    by_cases hle : xs.length ≤ 256
    · refine ⟨0, [], [], [], [], by simp, by omega, ?_, rfl, rfl, rfl, rfl, by simp [unpackLane_nil],
        by simp [unpackLane_nil], by simp [unpackLane_nil], by simp [unpackLane_nil]⟩
      rw [Nat.mul_zero, List.drop_zero, runLoad_small xs pk tr hle]
      simp
    · push_neg at hle
      have htake : (xs.take 257).length = 257 := by rw [List.length_take]; omega
      have hdrop : (xs.drop 257).length = n - 257 := by rw [List.length_drop]; omega
      obtain ⟨k', m0, m1, m2, m3, hk1, hk2, hrun, hl0, hl1, hl2, hl3, hu0, hu1, hu2, hu3⟩ :=
        ih (n - 257) (by omega) (xs.drop 257)
          ⟨pk.blocks0 ++ [chunkBlock Lanes4.l0 ((xs.take 257).map zip_u8)],
           pk.blocks1 ++ [chunkBlock Lanes4.l1 ((xs.take 257).map zip_u8)],
           pk.blocks2 ++ [chunkBlock Lanes4.l2 ((xs.take 257).map zip_u8)],
           pk.blocks3 ++ [chunkBlock Lanes4.l3 ((xs.take 257).map zip_u8)],
           pk.count + 257⟩ tr hdrop
      have hwhole : runLoad xs ⟨Cache.default, pk, tr⟩ =
          runLoad (xs.drop 257)
            ⟨Cache.default,
             ⟨pk.blocks0 ++ [chunkBlock Lanes4.l0 ((xs.take 257).map zip_u8)],
              pk.blocks1 ++ [chunkBlock Lanes4.l1 ((xs.take 257).map zip_u8)],
              pk.blocks2 ++ [chunkBlock Lanes4.l2 ((xs.take 257).map zip_u8)],
              pk.blocks3 ++ [chunkBlock Lanes4.l3 ((xs.take 257).map zip_u8)],
              pk.count + 257⟩, tr⟩ := by
        conv_lhs => rw [show xs = xs.take 257 ++ xs.drop 257 from (List.take_append_drop ..).symm]
        rw [runLoad_append, runLoad_full_chunk _ pk tr htake]
      have hsum : 257 * (k' + 1) = 257 + 257 * k' := by ring
      refine ⟨k' + 1,
        chunkBlock Lanes4.l0 ((xs.take 257).map zip_u8) :: m0,
        chunkBlock Lanes4.l1 ((xs.take 257).map zip_u8) :: m1,
        chunkBlock Lanes4.l2 ((xs.take 257).map zip_u8) :: m2,
        chunkBlock Lanes4.l3 ((xs.take 257).map zip_u8) :: m3,
        by omega, by omega, ?_, by simp [hl0], by simp [hl1], by simp [hl2], by simp [hl3],
        ?_, ?_, ?_, ?_⟩
      · rw [hwhole, hrun, hsum]
        simp [List.drop_drop, List.append_assoc, Nat.add_assoc]
      · rw [unpackLane_cons, hu0, unpackBlock_chunk_full Lanes4.l0 l0_xor4 _
            (by rw [List.length_map, htake]), hsum, take_add_split, List.map_append,
          List.map_map]
        rfl
      · rw [unpackLane_cons, hu1, unpackBlock_chunk_full Lanes4.l1 l1_xor4 _
            (by rw [List.length_map, htake]), hsum, take_add_split, List.map_append,
          List.map_map]
        rfl
      · rw [unpackLane_cons, hu2, unpackBlock_chunk_full Lanes4.l2 l2_xor4 _
            (by rw [List.length_map, htake]), hsum, take_add_split, List.map_append,
          List.map_map]
        rfl
      · rw [unpackLane_cons, hu3, unpackBlock_chunk_full Lanes4.l3 l3_xor4 _
            (by rw [List.length_map, htake]), hsum, take_add_split, List.map_append,
          List.map_map]
        rfl

/-- Flushing a cache that holds the (nonempty, at most 256-value) trailing
partial chunk `v :: t`. -/
theorem pack_cacheOf_cons (v : Bytes16) (t : List Bytes16) (pk : PackedDecimals) (tr : Bool) :
    Packer.pack ⟨cacheOf ((v :: t).map zip_u8), pk, tr⟩ =
      ⟨Cache.default,
       ⟨pk.blocks0 ++ [chunkBlock Lanes4.l0 ((v :: t).map zip_u8)],
        pk.blocks1 ++ [chunkBlock Lanes4.l1 ((v :: t).map zip_u8)],
        pk.blocks2 ++ [chunkBlock Lanes4.l2 ((v :: t).map zip_u8)],
        pk.blocks3 ++ [chunkBlock Lanes4.l3 ((v :: t).map zip_u8)],
        pk.count + (t.length + 1)⟩, tr⟩ := by
  simp only [List.map_cons, cacheOf]
  rw [pack_mk]
  simp only [Packer.mk.injEq, PackedDecimals.mk.injEq, chunkBlock, deltasFrom_length,
    List.length_map, true_and, and_true]
  omega

theorem cacheOf_nil : cacheOf [] = Cache.default := rfl

theorem pack_default (pk : PackedDecimals) (tr : Bool) :
    Packer.pack ⟨Cache.default, pk, tr⟩ = ⟨Cache.default, pk, tr⟩ := rfl

theorem round_trip (values : List Bytes16) (hv : ∀ b ∈ values, validBytes b) :
    unpack (pack values) = some values := by
  obtain ⟨k, n0, n1, n2, n3, hk1, hk2, hrun, hl0, hl1, hl2, hl3, hu0, hu1, hu2, hu3⟩ :=
    runLoad_spec values.length values ⟨[], [], [], [], 0⟩ true rfl
  have hpack : pack values =
      ((runLoad values ⟨Cache.default, ⟨[], [], [], [], 0⟩, true⟩).pack).packed := rfl
  rw [hpack, hrun]
  cases hr : values.drop (257 * k) with
  | nil =>
    have hlen : values.length = 257 * k := by
      have := List.drop_eq_nil_iff.mp hr
      omega
    have htk : values.take (257 * k) = values := List.take_of_length_le (by omega)
    rw [htk] at hu0 hu1 hu2 hu3
    simp only [List.map_nil, cacheOf_nil, pack_default, unpack, List.nil_append, Nat.zero_add]
    rw [hu0, hu1, hu2, hu3, ← hlen]
    have hexact := unpackRows_exact values hv [] [] [] []
    simpa using hexact
  | cons v t =>
    have hlen : values.length - 257 * k = t.length + 1 := by
      have := congrArg List.length hr
      simp only [List.length_drop, List.length_cons] at this
      omega
    have htp : t.length ≤ 255 := by omega
    have hcnt : values.length = 257 * k + (t.length + 1) := by omega
    rw [pack_cacheOf_cons]
    have hdecode : ∀ (f : Lanes4 → Nat), (∀ a b : Lanes4, f (xor4 a b) = f a ^^^ f b) →
        unpackBlock (chunkBlock f ((v :: t).map zip_u8)) =
          ((v :: t).map (fun w => f (zip_u8 w))) ++
            List.replicate (256 - t.length) (((t.map zip_u8).map f).getLastD (f (zip_u8 v))) := by
      intro f hf
      rw [List.map_cons, unpackBlock_chunk f hf _ _ (by rw [List.length_map]; omega)]
      simp only [List.map_cons, List.cons_append, List.length_map]
      rw [List.map_map]
      rfl
    simp only [unpack, List.nil_append, Nat.zero_add, unpackLane_append]
    have hone : ∀ b : Block, unpackLane [b] = unpackBlock b := by
      intro b
      rw [show [b] = b :: [] from rfl, unpackLane_cons, unpackLane_nil, List.append_nil]
    rw [hone, hone, hone, hone, hu0, hu1, hu2, hu3,
      hdecode Lanes4.l0 l0_xor4, hdecode Lanes4.l1 l1_xor4, hdecode Lanes4.l2 l2_xor4,
      hdecode Lanes4.l3 l3_xor4]
    have hjoin : ∀ (f : Lanes4 → Nat) (g : List Nat),
        (values.take (257 * k)).map (fun w => f (zip_u8 w)) ++
          ((v :: t).map (fun w => f (zip_u8 w)) ++ g) =
        values.map (fun w => f (zip_u8 w)) ++ g := by
      intro f g
      rw [← List.append_assoc, ← List.map_append, ← hr, List.take_append_drop]
    rw [hjoin Lanes4.l0, hjoin Lanes4.l1, hjoin Lanes4.l2, hjoin Lanes4.l3, ← hcnt]
    exact unpackRows_exact values hv _ _ _ _

/-! ### Arbitrary operation sequences on a Packer (for the structural
invariants) -/

/-- An externally observable mutation of a `Packer`: feeding one decimal
(`load_decimal`) or flushing the current chunk (`pack`, the flush that
`finalize` performs). -/
inductive PackerOp where
  | ingest (v : Bytes16)
  | flush

def applyOp (p : Packer) (op : PackerOp) : Packer :=
  match op with
  | .ingest v => p.load_decimal v
  | .flush => p.pack

def applyOps (ops : List PackerOp) : Packer :=
  ops.foldl applyOp Packer.new

/-- The exact per-chunk value counts produced by a sequence of operations,
computed directly from the operation history.  `n` is the number of values
buffered in the current chunk (1 head + its real deltas so far).  An ingest
that brings the chunk to 257 values triggers the automatic flush (the code's
`idx == 256` check); an explicit flush emits the `n` buffered values unless
the chunk is empty.  Each emitted entry is therefore exactly
(1 head + number of real deltas of that flushed chunk). -/
def chunkSizes : List PackerOp → Nat → List Nat
  | [], _ => []
  | PackerOp.ingest _ :: rest, n =>
    if n + 1 = 257 then 257 :: chunkSizes rest 0 else chunkSizes rest (n + 1)
  | PackerOp.flush :: rest, n =>
    if n = 0 then chunkSizes rest 0 else n :: chunkSizes rest 0

/-- Number of values buffered in the cache's current chunk: 0 before the
first value, otherwise the head plus the deltas written. -/
def cacheFill (c : Cache) : Nat :=
  match c.buffer with
  | none => 0
  | some _ => c.compressed.length + 1

/-- The cache states reachable from a reset: no buffered value means no
deltas, and at most 255 deltas are ever held (the 256th triggers the
flush). -/
def GoodCache (c : Cache) : Prop :=
  (c.buffer = none → c.compressed = []) ∧ c.compressed.length ≤ 255

theorem chunkSizes_bounds (ops : List PackerOp) : ∀ n : Nat, n ≤ 256 →
    ∀ c ∈ chunkSizes ops n, 1 ≤ c ∧ c ≤ 257 := by
  induction ops with
  | nil => intro n _ c hc; cases hc
  | cons op rest ih =>
    intro n hn c hc
    cases op with
    | ingest v =>
      by_cases hfull : n + 1 = 257
      · rw [chunkSizes, if_pos hfull] at hc
        rcases List.mem_cons.mp hc with rfl | hc
        · omega
        · exact ih 0 (by omega) c hc
      · rw [chunkSizes, if_neg hfull] at hc
        exact ih (n + 1) (by omega) c hc
    | flush =>
      by_cases hzero : n = 0
      · rw [chunkSizes, if_pos hzero] at hc
        exact ih 0 (by omega) c hc
      · rw [chunkSizes, if_neg hzero] at hc
        rcases List.mem_cons.mp hc with rfl | hc
        · omega
        · exact ih 0 (by omega) c hc

/-- Running any operation sequence from a good state: every lane gains one
block per entry of `chunkSizes`, and the count grows by exactly their sum. -/
theorem applyOps_chunkSizes (ops : List PackerOp) : ∀ p : Packer, GoodCache p.cache →
    (ops.foldl applyOp p).packed.blocks0.length
      = p.packed.blocks0.length + (chunkSizes ops (cacheFill p.cache)).length ∧
    (ops.foldl applyOp p).packed.blocks1.length
      = p.packed.blocks1.length + (chunkSizes ops (cacheFill p.cache)).length ∧
    (ops.foldl applyOp p).packed.blocks2.length
      = p.packed.blocks2.length + (chunkSizes ops (cacheFill p.cache)).length ∧
    (ops.foldl applyOp p).packed.blocks3.length
      = p.packed.blocks3.length + (chunkSizes ops (cacheFill p.cache)).length ∧
    (ops.foldl applyOp p).packed.count
      = p.packed.count + (chunkSizes ops (cacheFill p.cache)).sum := by
  induction ops with
  | nil =>
    intro p _
    simp [chunkSizes]
  | cons op rest ih =>
    intro p hg
    obtain ⟨⟨buf, hh, ds⟩, pk, tr⟩ := p
    obtain ⟨hnone, hlen⟩ := hg
    simp only at hnone hlen
    cases op with
    | ingest v =>
      cases buf with
      | none =>
        have hds : ds = [] := hnone rfl
        subst hds
        rw [List.foldl_cons,
          show applyOp ⟨⟨none, hh, []⟩, pk, tr⟩ (PackerOp.ingest v)
            = ⟨⟨some (zip_u8 v), zip_u8 v, []⟩, pk, tr⟩ from rfl]
        have h := ih ⟨⟨some (zip_u8 v), zip_u8 v, []⟩, pk, tr⟩
          ⟨by intro h; simp at h, by simp⟩
        simpa [chunkSizes, cacheFill] using h
      | some b =>
        by_cases hfull : ds.length + 1 = 256
        · rw [List.foldl_cons,
            show applyOp ⟨⟨some b, hh, ds⟩, pk, tr⟩ (PackerOp.ingest v)
              = Packer.load_decimal ⟨⟨some b, hh, ds⟩, pk, tr⟩ v from rfl,
            load_flush b hh ds pk tr v hfull, pack_mk]
          have h := ih ⟨Cache.default,
            ⟨pk.blocks0 ++ [flushBlock hh.l0 ((ds ++ [xor4 (zip_u8 v) b]).map Lanes4.l0)],
             pk.blocks1 ++ [flushBlock hh.l1 ((ds ++ [xor4 (zip_u8 v) b]).map Lanes4.l1)],
             pk.blocks2 ++ [flushBlock hh.l2 ((ds ++ [xor4 (zip_u8 v) b]).map Lanes4.l2)],
             pk.blocks3 ++ [flushBlock hh.l3 ((ds ++ [xor4 (zip_u8 v) b]).map Lanes4.l3)],
             pk.count + (ds ++ [xor4 (zip_u8 v) b]).length + 1⟩, tr⟩
            ⟨(fun _ => rfl), (by simp [Cache.default])⟩
          rw [show cacheFill Cache.default = 0 from rfl] at h
          rw [show cacheFill (⟨some b, hh, ds⟩ : Cache) = ds.length + 1 from rfl]
          rw [show chunkSizes (PackerOp.ingest v :: rest) (ds.length + 1)
              = 257 :: chunkSizes rest 0 from by
            rw [chunkSizes, if_pos (by omega)]]
          simp only [List.length_append, List.length_cons, List.length_nil,
            List.sum_cons] at h ⊢
          omega
        · rw [List.foldl_cons,
            show applyOp ⟨⟨some b, hh, ds⟩, pk, tr⟩ (PackerOp.ingest v)
              = Packer.load_decimal ⟨⟨some b, hh, ds⟩, pk, tr⟩ v from rfl,
            load_step b hh ds pk tr v hfull]
          have h := ih ⟨⟨some (zip_u8 v), hh, ds ++ [xor4 (zip_u8 v) b]⟩, pk, tr⟩
            ⟨(fun hcon => by simp at hcon),
             (by simp only [List.length_append, List.length_cons, List.length_nil]; omega)⟩
          rw [show cacheFill (⟨some b, hh, ds⟩ : Cache) = ds.length + 1 from rfl]
          rw [show chunkSizes (PackerOp.ingest v :: rest) (ds.length + 1)
              = chunkSizes rest (ds.length + 1 + 1) from by
            rw [chunkSizes, if_neg (by omega)]]
          rw [show cacheFill (⟨some (zip_u8 v), hh, ds ++ [xor4 (zip_u8 v) b]⟩ : Cache)
              = (ds ++ [xor4 (zip_u8 v) b]).length + 1 from rfl] at h
          simp only [List.length_append, List.length_cons, List.length_nil] at h ⊢
          exact h
    | flush =>
      cases buf with
      | none =>
        have hds : ds = [] := hnone rfl
        subst hds
        rw [List.foldl_cons,
          show applyOp ⟨⟨none, hh, []⟩, pk, tr⟩ PackerOp.flush
            = ⟨⟨none, hh, []⟩, pk, tr⟩ from rfl]
        have h := ih ⟨⟨none, hh, []⟩, pk, tr⟩ ⟨fun _ => rfl, by simp⟩
        rw [show cacheFill (⟨none, hh, []⟩ : Cache) = 0 from rfl] at h ⊢
        rw [show chunkSizes (PackerOp.flush :: rest) 0 = chunkSizes rest 0 from by
          rw [chunkSizes, if_pos rfl]]
        exact h
      | some b =>
        rw [List.foldl_cons,
          show applyOp ⟨⟨some b, hh, ds⟩, pk, tr⟩ PackerOp.flush
            = Packer.pack ⟨⟨some b, hh, ds⟩, pk, tr⟩ from rfl,
          pack_mk]
        have h := ih ⟨Cache.default,
          ⟨pk.blocks0 ++ [flushBlock hh.l0 (ds.map Lanes4.l0)],
           pk.blocks1 ++ [flushBlock hh.l1 (ds.map Lanes4.l1)],
           pk.blocks2 ++ [flushBlock hh.l2 (ds.map Lanes4.l2)],
           pk.blocks3 ++ [flushBlock hh.l3 (ds.map Lanes4.l3)],
           pk.count + ds.length + 1⟩, tr⟩
          ⟨(fun _ => rfl), (by simp [Cache.default])⟩
        rw [show cacheFill Cache.default = 0 from rfl] at h
        rw [show cacheFill (⟨some b, hh, ds⟩ : Cache) = ds.length + 1 from rfl]
        rw [show chunkSizes (PackerOp.flush :: rest) (ds.length + 1)
            = (ds.length + 1) :: chunkSizes rest 0 from by
          rw [chunkSizes, if_neg (by omega)]]
        simp only [List.length_append, List.length_cons, List.length_nil,
          List.sum_cons] at h ⊢
        omega

/-! ### String loading (`Packer::load`) -/

/-- Rust `str::trim_matches('0')`: strip every leading and trailing
occurrence of the character from both ends. -/
def trimMatches (c : Char) (s : List Char) : List Char :=
  ((s.dropWhile (fun x => x == c)).reverse.dropWhile (fun x => x == c)).reverse

def isDigitChar (c : Char) : Bool := decide ('0' ≤ c) && decide (c ≤ '9')

def digitsToNat (ds : List Char) : Nat :=
  ds.foldl (fun a c => a * 10 + (c.toNat - '0'.toNat)) 0

/-- The canonical 16-byte serialization of the decimal with the given sign,
scale and 96-bit mantissa: bytes 0..3 are the little-endian flags word
(sign bit 31, scale in bits 16..23), bytes 4..15 the little-endian
mantissa words. -/
def decimalSerialize (sign : Bool) (scale mant : Nat) : Bytes16 :=
  let flags := (if sign then 2 ^ 31 else 0) + scale * 2 ^ 16
  ⟨flags % 256, flags / 256 % 256, flags / 65536 % 256, flags / 16777216 % 256,
   mant % 256, mant / 256 % 256, mant / 65536 % 256, mant / 16777216 % 256,
   mant / 2 ^ 32 % 256, mant / 2 ^ 40 % 256, mant / 2 ^ 48 % 256, mant / 2 ^ 56 % 256,
   mant / 2 ^ 64 % 256, mant / 2 ^ 72 % 256, mant / 2 ^ 80 % 256, mant / 2 ^ 88 % 256⟩

/-- Modelled from the spec: `Decimal::from_str` of the external
`rust_decimal` collaborator (the "Decimal domain collaborator" of §6, not
part of this repository's source).  A literal is an optional sign, integer
digits, and an optional fraction after a dot; the empty string, a non-digit
character, an absent mantissa, a scale beyond 28 or a mantissa beyond 96
bits are *input-parse failures* (§7).  The value is serialized to the
canonical 16-byte form. -/
def decimalFromStr (s : List Char) : Option Bytes16 :=
  let signAndRest : Bool × List Char :=
    match s with
    | '-' :: rest => (true, rest)
    | '+' :: rest => (false, rest)
    | _ => (false, s)
  let sign := signAndRest.1
  let s1 := signAndRest.2
  let ip := s1.takeWhile (fun c => !(c == '.'))
  let fp := match s1.dropWhile (fun c => !(c == '.')) with
    | [] => []
    | _ :: tail => tail
  if s1.isEmpty then none
  else if !(ip ++ fp).all isDigitChar then none
  else if (ip ++ fp).isEmpty then none
  else if 28 < fp.length then none
  else if 2 ^ 96 ≤ digitsToNat (ip ++ fp) then none
  else some (decimalSerialize sign fp.length (digitsToNat (ip ++ fp)))

/-- `Packer::load`: trim `'0'` from both ends when trimming is on, parse the
literal, ingest the decimal; a parse failure is returned to the caller. -/
def Packer.load (p : Packer) (value : List Char) : Except Unit Packer :=
  let result := if p.trim then trimMatches '0' value else value
  match decimalFromStr result with
  | some d => Except.ok (p.load_decimal d)
  | none => Except.error ()

/-! ### Concrete values used by the test-scenario claims -/

/-- `8874.85` (mantissa 887485, scale 2). -/
def dec887485 : Bytes16 := decimalSerialize false 2 887485

/-- `8875.14`. -/
def dec887514 : Bytes16 := decimalSerialize false 2 887514

/-- `8874.99`. -/
def dec887499 : Bytes16 := decimalSerialize false 2 887499

/-- `8874.98`. -/
def dec887498 : Bytes16 := decimalSerialize false 2 887498

/-- The 260-value ingest stream of the concrete scenario: the four literals
repeated 65 times. -/
def scenarioInput : List Bytes16 :=
  (List.replicate 65 [dec887485, dec887514, dec887499, dec887498]).flatten

/-- A malformed `PackedDecimals` whose lane block lists disagree in length
(two blocks in lane 0, one in each other lane). -/
def badStream : PackedDecimals :=
  ⟨[⟨0, 5, []⟩, ⟨0, 6, []⟩], [⟨0, 1, []⟩], [⟨0, 2, []⟩], [⟨0, 3, []⟩], 1⟩

/-- A malformed `PackedDecimals` whose `total_count` (1) exceeds the number
of reconstructable positions (lane 0 has no blocks at all). -/
def shortStream : PackedDecimals := ⟨[], [⟨0, 1, []⟩], [⟨0, 2, []⟩], [⟨0, 3, []⟩], 1⟩

/-! ### Small helper facts for the claim theorems -/

theorem xor4_self (z : Lanes4) : xor4 z z = ⟨0, 0, 0, 0⟩ := by
  simp [xor4, Nat.xor_self]

theorem deltasFrom_replicate (z : Lanes4) (n : Nat) :
    deltasFrom z (List.replicate n z) = List.replicate n (xor4 z z) := by
  induction n with
  | zero => rfl
  | succ n ih => simp [List.replicate_succ, deltasFrom, ih]

theorem numBits_replicate_zero (n : Nat) : numBits (List.replicate n 0) = 0 := by
  induction n with
  | zero => rfl
  | succ n ih => simp [List.replicate_succ, numBits, Nat.size_zero] at ih ⊢; exact ih

theorem unpackLane_singleton (b : Block) : unpackLane [b] = unpackBlock b := by
  rw [show [b] = b :: [] from rfl, unpackLane_cons, unpackLane_nil, List.append_nil]

theorem flushBlock_zero_deltas (hd : Nat) :
    flushBlock hd (List.replicate 255 0) = ⟨0, hd, []⟩ := by
  have hslots : List.replicate 255 (0 : Nat) ++
      List.replicate (256 - (List.replicate 255 (0 : Nat)).length) 0 =
      List.replicate 256 0 := by
    simp only [List.length_replicate]
    rw [show (256 : Nat) - 255 = 1 from rfl, ← List.replicate_add]
  simp only [flushBlock, hslots, numBits_replicate_zero]
  have hc : compress (List.replicate 256 0) 0 = [] := rfl
  rw [hc]

theorem unpack_length (P : PackedDecimals) (xs : List Bytes16) (h : unpack P = some xs) :
    xs.length = P.count :=
  unpackRows_length P.count _ _ _ _ xs h

/-! ### The claims -/

/-- **C1.** For every finite sequence of Decimals (including the empty
sequence, singletons, and lengths that are multiples of 256 or 256±1),
decoding the PackedStream produced by encoding it — the free function `pack`
followed by `unpack` — yields the original sequence element-wise. -/
theorem c1_pack_unpack_round_trip (values : List Bytes16)
    (hv : ∀ b ∈ values, validBytes b) :
    unpack (pack values) = some values :=
  round_trip values hv

theorem c1_pack_unpack_round_trip_witness :
    unpack (pack [dec887485, dec887514]) = some [dec887485, dec887514] :=
  c1_pack_unpack_round_trip [dec887485, dec887514] (by decide)

/-- **C5.** The lane split/join pair `zip_u8`/`unzip_u8` is a total round
trip over the 16-byte domain, in both directions: joining the four 32-bit
lanes produced by splitting any 16-byte decimal yields the decimal again,
and splitting the 16 bytes produced by joining any four 32-bit lanes yields
the lanes again — a bijection between the two layouts, with no error
conditions. -/
theorem c5_zip_unzip_bijective :
    (∀ v : Bytes16, validBytes v → unzip_u8 (zip_u8 v) = v) ∧
    (∀ l : Lanes4, validLanes l → zip_u8 (unzip_u8 l) = l) :=
  ⟨unzip_zip, zip_unzip⟩

theorem c5_zip_unzip_bijective_witness :
    unzip_u8 (zip_u8 dec887485) = dec887485 ∧
    zip_u8 (unzip_u8 ⟨512, 887485, 0, 0⟩) = ⟨512, 887485, 0, 0⟩ :=
  ⟨c5_zip_unzip_bijective.1 dec887485 (by decide),
   c5_zip_unzip_bijective.2 ⟨512, 887485, 0, 0⟩ (by decide)⟩

/-- **C6.** The chunk-cache ingest step (the cache update inside
`load_decimal`, operating on all four lanes in lock-step): if `previous_raw`
(`buffer`) is unset, the head is set to the raw lane values and the delta
buffer — and with it the fill counter, which is its length — is untouched;
otherwise the XOR delta against the previous raw value is written at the
fill position (appended) and the fill count grows by one; in both cases
`previous_raw` is then set to the raw value. -/
theorem c6_cache_ingest_step (c : Cache) (v : Lanes4) :
    (c.buffer = none → c.ingest v = ⟨some v, v, c.compressed⟩) ∧
    (∀ b : Lanes4, c.buffer = some b →
      c.ingest v = ⟨some v, c.head, c.compressed ++ [xor4 v b]⟩) := by
  obtain ⟨buf, hh, ds⟩ := c
  constructor
  · intro h
    simp only at h
    subst h
    rfl
  · intro b h
    simp only at h
    subst h
    rfl

theorem c6_cache_ingest_step_witness :
    Cache.ingest ⟨none, ⟨7, 7, 7, 7⟩, [⟨9, 9, 9, 9⟩]⟩ ⟨1, 2, 3, 4⟩ =
      ⟨some ⟨1, 2, 3, 4⟩, ⟨1, 2, 3, 4⟩, [⟨9, 9, 9, 9⟩]⟩ ∧
    Cache.ingest ⟨some ⟨1, 2, 3, 4⟩, ⟨7, 7, 7, 7⟩, []⟩ ⟨5, 6, 7, 8⟩ =
      ⟨some ⟨5, 6, 7, 8⟩, ⟨7, 7, 7, 7⟩, [xor4 ⟨5, 6, 7, 8⟩ ⟨1, 2, 3, 4⟩]⟩ :=
  ⟨(c6_cache_ingest_step ⟨none, ⟨7, 7, 7, 7⟩, [⟨9, 9, 9, 9⟩]⟩ ⟨1, 2, 3, 4⟩).1 rfl,
   (c6_cache_ingest_step ⟨some ⟨1, 2, 3, 4⟩, ⟨7, 7, 7, 7⟩, []⟩ ⟨5, 6, 7, 8⟩).2 ⟨1, 2, 3, 4⟩ rfl⟩

theorem natDeltas_const (c : Nat) (xs : List Nat) (h : ∀ x ∈ xs, x = c) :
    natDeltas c xs = List.replicate xs.length 0 := by
  induction xs with
  | nil => rfl
  | cons x rest ih =>
    have hx : x = c := h x (List.mem_cons_self ..)
    subst hx
    simp only [natDeltas, List.length_cons, List.replicate_succ, Nat.xor_self]
    rw [ih (fun y hy => h y (List.mem_cons_of_mem _ hy))]

/-- A chunk one of whose lanes is constant emits, for that lane, a block of
width 0 with an empty payload. -/
theorem chunkBlock_const (f : Lanes4 → Nat) (hf : ∀ a b, f (xor4 a b) = f a ^^^ f b)
    (v : Bytes16) (t : List Bytes16) (c : Nat) (hlen : t.length = 255)
    (hconst : ∀ b ∈ v :: t, f (zip_u8 b) = c) :
    chunkBlock f ((v :: t).map zip_u8) = ⟨0, c, []⟩ := by
  have hv : f (zip_u8 v) = c := hconst v (List.mem_cons_self ..)
  rw [List.map_cons, chunkBlock, map_deltasFrom f hf, hv]
  have hall : ∀ x ∈ (t.map zip_u8).map f, x = c := by
    intro x hx
    simp only [List.map_map, List.mem_map] at hx
    obtain ⟨b, hb, rfl⟩ := hx
    exact hconst b (List.mem_cons_of_mem _ hb)
  rw [natDeltas_const c _ hall]
  simp only [List.length_map, hlen]
  exact flushBlock_zero_deltas c

/-- **C8.** For every chunk of 256 input decimals one of whose four lanes is
constant across the chunk (so every delta of that lane is zero), the Block
emitted for *that lane* by the finalizing flush has `bit_width = 0` and an
empty payload, with the constant raw lane value stored verbatim as the head
— each lane independently, whether or not the other lanes vary. -/
theorem c8_constant_lane_zero_width (vs : List Bytes16) (hlen : vs.length = 256) :
    (∀ c : Nat, (∀ b ∈ vs, (zip_u8 b).l0 = c) →
      ((runLoad vs Packer.new).pack).packed.blocks0 = [⟨0, c, []⟩]) ∧
    (∀ c : Nat, (∀ b ∈ vs, (zip_u8 b).l1 = c) →
      ((runLoad vs Packer.new).pack).packed.blocks1 = [⟨0, c, []⟩]) ∧
    (∀ c : Nat, (∀ b ∈ vs, (zip_u8 b).l2 = c) →
      ((runLoad vs Packer.new).pack).packed.blocks2 = [⟨0, c, []⟩]) ∧
    (∀ c : Nat, (∀ b ∈ vs, (zip_u8 b).l3 = c) →
      ((runLoad vs Packer.new).pack).packed.blocks3 = [⟨0, c, []⟩]) := by
  cases vs with
  | nil => simp at hlen
  | cons v t =>
    have ht : t.length = 255 := by
      simp only [List.length_cons] at hlen
      omega
    rw [show Packer.new = ⟨Cache.default, ⟨[], [], [], [], 0⟩, true⟩ from rfl,
      runLoad_small _ _ _ (Nat.le_of_eq hlen), pack_cacheOf_cons]
    refine ⟨?_, ?_, ?_, ?_⟩ <;> intro c hconst
    · rw [show (⟨[], [], [], [], 0⟩ : PackedDecimals).blocks0 ++
          [chunkBlock Lanes4.l0 ((v :: t).map zip_u8)]
          = [chunkBlock Lanes4.l0 ((v :: t).map zip_u8)] from List.nil_append _,
        chunkBlock_const Lanes4.l0 l0_xor4 v t c ht hconst]
    · rw [show (⟨[], [], [], [], 0⟩ : PackedDecimals).blocks1 ++
          [chunkBlock Lanes4.l1 ((v :: t).map zip_u8)]
          = [chunkBlock Lanes4.l1 ((v :: t).map zip_u8)] from List.nil_append _,
        chunkBlock_const Lanes4.l1 l1_xor4 v t c ht hconst]
    · rw [show (⟨[], [], [], [], 0⟩ : PackedDecimals).blocks2 ++
          [chunkBlock Lanes4.l2 ((v :: t).map zip_u8)]
          = [chunkBlock Lanes4.l2 ((v :: t).map zip_u8)] from List.nil_append _,
        chunkBlock_const Lanes4.l2 l2_xor4 v t c ht hconst]
    · rw [show (⟨[], [], [], [], 0⟩ : PackedDecimals).blocks3 ++
          [chunkBlock Lanes4.l3 ((v :: t).map zip_u8)]
          = [chunkBlock Lanes4.l3 ((v :: t).map zip_u8)] from List.nil_append _,
        chunkBlock_const Lanes4.l3 l3_xor4 v t c ht hconst]

/-- **C9.** The flush (`pack`, which `finalize` performs) is idempotent:
with no buffered value (`previous_raw`/head unset, `buffer = none`) it
leaves the Packer unchanged, otherwise it performs exactly one flush — one
block appended per lane, the count grown by the chunk's 1 + deltas, the
cache reset; flushing a Packer that never ingested yields `total_count = 0`
and no blocks in any lane, not an error. -/
theorem c9_pack_idempotent (p : Packer) :
    p.pack.pack = p.pack ∧
    (p.cache.buffer = none → p.pack = p) ∧
    (∀ b : Lanes4, p.cache.buffer = some b →
      p.pack.packed.blocks0.length = p.packed.blocks0.length + 1 ∧
      p.pack.packed.blocks1.length = p.packed.blocks1.length + 1 ∧
      p.pack.packed.blocks2.length = p.packed.blocks2.length + 1 ∧
      p.pack.packed.blocks3.length = p.packed.blocks3.length + 1 ∧
      p.pack.packed.count = p.packed.count + p.cache.compressed.length + 1 ∧
      p.pack.cache = Cache.default) ∧
    (Packer.new.pack.packed.count = 0 ∧
      Packer.new.pack.packed.blocks0 = [] ∧ Packer.new.pack.packed.blocks1 = [] ∧
      Packer.new.pack.packed.blocks2 = [] ∧ Packer.new.pack.packed.blocks3 = []) := by
  obtain ⟨⟨buf, hh, ds⟩, pk, tr⟩ := p
  refine ⟨?_, ?_, ?_, rfl, rfl, rfl, rfl, rfl⟩
  · cases buf with
    | none => rfl
    | some b => rw [pack_mk, pack_default]
  · intro h
    simp only at h
    subst h
    rfl
  · intro b h
    simp only at h
    subst h
    rw [pack_mk]
    simp

theorem c9_pack_idempotent_witness :
    (Packer.new.load_decimal dec887485).pack.packed.blocks0.length =
        (Packer.new.load_decimal dec887485).packed.blocks0.length + 1 ∧
    (Packer.new.load_decimal dec887485).pack.packed.count =
        (Packer.new.load_decimal dec887485).packed.count +
          (Packer.new.load_decimal dec887485).cache.compressed.length + 1 ∧
    Packer.new.pack = Packer.new := by
  have h := (c9_pack_idempotent (Packer.new.load_decimal dec887485)).2.2.1
    (zip_u8 dec887485) rfl
  exact ⟨h.1, h.2.2.2.2.1, (c9_pack_idempotent Packer.new).2.1 rfl⟩

/-- **C2 counterexample.**  `unpack` raises no "corrupt packed stream"
condition: on `badStream`, whose lane block lists disagree in length (2
vs 1), it silently returns a decoded value instead of failing; on
`shortStream`, whose `total_count` exceeds the reconstructable positions of
lane 0, it panics on the out-of-bounds index (modelled by `none`) instead of
reporting a distinct error. -/
theorem c2_counterexample :
    badStream.blocks0.length ≠ badStream.blocks1.length ∧
    (unpack badStream).isSome = true ∧
    shortStream.count = 1 ∧ 257 * shortStream.blocks0.length = 0 ∧
    unpack shortStream = none :=
  ⟨by decide, by decide, by decide, by decide, by decide⟩

/-- **C2 (amended).**  `unpack` performs no corrupt-stream validation: it
succeeds exactly when `total_count` is at most the number of reconstructable
positions of every lane (257 per block), even if the four lane lists
disagree in length, and it panics (out-of-bounds lane indexing, modelled by
`none`) otherwise; a successful decode always yields exactly `total_count`
decimals. -/
theorem c2_unpack_characterization (P : PackedDecimals) :
    ((unpack P).isSome ↔
      (P.count ≤ 257 * P.blocks0.length ∧ P.count ≤ 257 * P.blocks1.length ∧
       P.count ≤ 257 * P.blocks2.length ∧ P.count ≤ 257 * P.blocks3.length)) ∧
    (∀ xs : List Bytes16, unpack P = some xs → xs.length = P.count) := by
  constructor
  · rw [unpack, unpackRows_isSome, unpackLane_length, unpackLane_length,
      unpackLane_length, unpackLane_length]
  · intro xs h
    exact unpack_length P xs h

theorem c2_unpack_characterization_witness :
    (unpack badStream).isSome = true ∧
    ([unzip_u8 ⟨5, 1, 2, 3⟩] : List Bytes16).length = badStream.count :=
  ⟨(c2_unpack_characterization badStream).1.mpr (by decide),
   (c2_unpack_characterization badStream).2 [unzip_u8 ⟨5, 1, 2, 3⟩] (by decide)⟩

/-- **C7.** After every sequence of Packer operations (ingests and flushes)
from a fresh Packer, the four lane block lists have exactly equal lengths —
one block per lane per flushed chunk — and `total_count` equals the sum over
the flushed chunks of (1 head + the number of real deltas in that chunk):
`chunkSizes ops 0` computes those per-chunk value counts directly from the
operation history, each between 1 and 257 (so the count is *not*
`blocks.len() * 257`, the final flushed chunk may be partial). -/
theorem c7_lockstep_lanes_and_count (ops : List PackerOp) :
    (applyOps ops).packed.blocks0.length = (applyOps ops).packed.blocks1.length ∧
    (applyOps ops).packed.blocks0.length = (applyOps ops).packed.blocks2.length ∧
    (applyOps ops).packed.blocks0.length = (applyOps ops).packed.blocks3.length ∧
    (applyOps ops).packed.blocks0.length = (chunkSizes ops 0).length ∧
    (applyOps ops).packed.count = (chunkSizes ops 0).sum ∧
    (∀ c ∈ chunkSizes ops 0, 1 ≤ c ∧ c ≤ 257) := by
  obtain ⟨h0, h1, h2, h3, hc⟩ :=
    applyOps_chunkSizes ops Packer.new ⟨(fun _ => rfl), (by simp [Packer.new, Cache.default])⟩
  rw [show ops.foldl applyOp Packer.new = applyOps ops from rfl,
    show cacheFill Packer.new.cache = 0 from rfl] at h0 h1 h2 h3 hc
  simp only [show Packer.new.packed.blocks0.length = 0 from rfl,
    show Packer.new.packed.blocks1.length = 0 from rfl,
    show Packer.new.packed.blocks2.length = 0 from rfl,
    show Packer.new.packed.blocks3.length = 0 from rfl,
    show Packer.new.packed.count = 0 from rfl, Nat.zero_add] at h0 h1 h2 h3 hc
  exact ⟨by omega, by omega, by omega, h0, hc, chunkSizes_bounds ops 0 (by omega)⟩

/-- **C4 counterexample.**  A stream of exactly 256 values (a multiple of
256) is *not* flushed during ingest: no block is emitted, the count stays 0,
the whole stream is still buffered in the cache, and the finalizing flush is
not a no-op (it emits the 256 buffered values, bringing the count to 256).
A chunk therefore holds up to 257 — not 256 — consecutive decimals. -/
theorem c4_counterexample :
    (runLoad (List.replicate 256 dec887485) Packer.new).packed.blocks0.length = 0 ∧
    (runLoad (List.replicate 256 dec887485) Packer.new).packed.count = 0 ∧
    (runLoad (List.replicate 256 dec887485) Packer.new).cache.buffer.isSome = true ∧
    ((runLoad (List.replicate 256 dec887485) Packer.new).pack).packed.count = 256 := by
  rw [show Packer.new = ⟨Cache.default, ⟨[], [], [], [], 0⟩, true⟩ from rfl,
    runLoad_small _ _ _ (Nat.le_of_eq (List.length_replicate ..)),
    show List.replicate 256 dec887485 = dec887485 :: List.replicate 255 dec887485 from rfl,
    pack_cacheOf_cons]
  refine ⟨rfl, rfl, rfl, ?_⟩
  simp only [List.length_replicate]

/-- **C4 (amended).**  A full chunk holds 257 consecutive input decimals
(one head plus 256 deltas).  For every input stream whose length is exactly
a multiple of 257, every chunk is flushed during ingest (the 257th value of
each chunk triggers the flush), so the cache ends empty, the finalizing
flush is a no-op, one block per lane exists for every 257 values, and the
count equals the stream length. -/
theorem c4_multiple_of_257_flushes_all (xs : List Bytes16) (h : xs.length % 257 = 0) :
    (runLoad xs Packer.new).cache = Cache.default ∧
    (runLoad xs Packer.new).pack = runLoad xs Packer.new ∧
    (runLoad xs Packer.new).packed.blocks0.length = xs.length / 257 ∧
    (runLoad xs Packer.new).packed.count = xs.length := by
  obtain ⟨k, n0, n1, n2, n3, hk1, hk2, hrun, hl0, hl1, hl2, hl3, hu0, hu1, hu2, hu3⟩ :=
    runLoad_spec xs.length xs ⟨[], [], [], [], 0⟩ true rfl
  have hlen : xs.length = 257 * k := by omega
  have hdrop : xs.drop (257 * k) = [] := List.drop_eq_nil_iff.mpr (by omega)
  rw [show Packer.new = ⟨Cache.default, ⟨[], [], [], [], 0⟩, true⟩ from rfl, hrun, hdrop]
  refine ⟨by simp [cacheOf_nil], by simp [cacheOf_nil, pack_default], ?_, ?_⟩
  · simp only [List.nil_append]
    omega
  · simp only
    omega

theorem c4_multiple_of_257_flushes_all_witness :
    (runLoad [] Packer.new).cache = Cache.default ∧
    (runLoad [] Packer.new).pack = runLoad [] Packer.new ∧
    (runLoad [] Packer.new).packed.blocks0.length = ([] : List Bytes16).length / 257 ∧
    (runLoad [] Packer.new).packed.count = ([] : List Bytes16).length :=
  c4_multiple_of_257_flushes_all [] (by decide)

set_option maxRecDepth 8192

theorem scenarioInput_length : scenarioInput.length = 260 := by decide

/-- The packer state after ingesting the 260 scenario values: the first 257
values were flushed as one full chunk (one block per lane, count 257), the
remaining 3 are still buffered in the cache. -/
theorem scenario_state :
    runLoad scenarioInput Packer.new =
      ⟨cacheOf ((scenarioInput.drop 257).map zip_u8),
       ⟨[chunkBlock Lanes4.l0 ((scenarioInput.take 257).map zip_u8)],
        [chunkBlock Lanes4.l1 ((scenarioInput.take 257).map zip_u8)],
        [chunkBlock Lanes4.l2 ((scenarioInput.take 257).map zip_u8)],
        [chunkBlock Lanes4.l3 ((scenarioInput.take 257).map zip_u8)],
        257⟩, true⟩ := by
  have htake : (scenarioInput.take 257).length = 257 := by
    rw [List.length_take, scenarioInput_length]
    omega
  have hrlen : (scenarioInput.drop 257).length ≤ 256 := by
    rw [List.length_drop, scenarioInput_length]
    omega
  conv_lhs =>
    rw [show scenarioInput = scenarioInput.take 257 ++ scenarioInput.drop 257 from
      (List.take_append_drop ..).symm]
  rw [show Packer.new = ⟨Cache.default, ⟨[], [], [], [], 0⟩, true⟩ from rfl, runLoad_append,
    runLoad_full_chunk _ _ _ htake, runLoad_small _ _ _ hrlen]
  simp only [List.nil_append, Nat.zero_add]

/-- **C3 counterexample.**  After ingesting the 260 scenario literals the
trailing 3 values are still only buffered: `total_count` is 257, not the
claimed 260 (and `unload()` accordingly returns 257, not 260, values). -/
theorem c3_counterexample :
    (runLoad scenarioInput Packer.new).packed.count = 257 ∧
    (runLoad scenarioInput Packer.new).packed.count ≠ 260 := by
  rw [scenario_state]
  exact ⟨rfl, by decide⟩

/-- **C3 (amended).**  Ingesting the 260 scenario literals produces exactly
one full block per lane, covering the first 257 values, with the remaining 3
values held unflushed in the chunk cache: `total_count == 257` and
`unload()` reproduces the first 257 values in order, with `unload()[0] ==
8874.85`; flushing the trailing partial chunk (`pack`, as `finalize` would)
brings `total_count` to 260, after which `unload()` reproduces all 260
values in order. -/
theorem c3_scenario :
    (runLoad scenarioInput Packer.new).packed.blocks0.length = 1 ∧
    (runLoad scenarioInput Packer.new).packed.blocks1.length = 1 ∧
    (runLoad scenarioInput Packer.new).packed.blocks2.length = 1 ∧
    (runLoad scenarioInput Packer.new).packed.blocks3.length = 1 ∧
    (runLoad scenarioInput Packer.new).packed.count = 257 ∧
    (runLoad scenarioInput Packer.new).unload = some (scenarioInput.take 257) ∧
    (scenarioInput.take 257).head? = some dec887485 ∧
    ((runLoad scenarioInput Packer.new).pack).packed.count = 260 ∧
    ((runLoad scenarioInput Packer.new).pack).unload = some scenarioInput := by
  have htake : (scenarioInput.take 257).length = 257 := by
    rw [List.length_take, scenarioInput_length]
    omega
  have hvalid : ∀ b ∈ scenarioInput, validBytes b := by decide
  have hvalid' : ∀ b ∈ scenarioInput.take 257, validBytes b := fun b hb =>
    hvalid b (List.mem_of_mem_take hb)
  refine ⟨?_, ?_, ?_, ?_, ?_, ?_, ?_, ?_, ?_⟩
  · rw [scenario_state]
    rfl
  · rw [scenario_state]
    rfl
  · rw [scenario_state]
    rfl
  · rw [scenario_state]
    rfl
  · rw [scenario_state]
  · rw [scenario_state, Packer.unload]
    simp only [unpack, unpackLane_singleton]
    rw [unpackBlock_chunk_full Lanes4.l0 l0_xor4 _ (by rw [List.length_map, htake]),
      unpackBlock_chunk_full Lanes4.l1 l1_xor4 _ (by rw [List.length_map, htake]),
      unpackBlock_chunk_full Lanes4.l2 l2_xor4 _ (by rw [List.length_map, htake]),
      unpackBlock_chunk_full Lanes4.l3 l3_xor4 _ (by rw [List.length_map, htake])]
    have hexact := unpackRows_exact (scenarioInput.take 257) hvalid' [] [] [] []
    simp only [List.append_nil, htake] at hexact
    simp only [List.map_map]
    exact hexact
  · decide
  · rw [show ((runLoad scenarioInput Packer.new).pack).packed = pack scenarioInput from rfl,
      ← unpack_length (pack scenarioInput) scenarioInput (round_trip scenarioInput hvalid)]
    exact scenarioInput_length
  · rw [Packer.unload,
      show ((runLoad scenarioInput Packer.new).pack).packed = pack scenarioInput from rfl]
    exact round_trip scenarioInput hvalid

/-- **C10.**  With trimming enabled (the default), `Packer::load` strips
`'0'` characters from *both* ends of the input before parsing: `"100"` is
trimmed to `"1"` and loaded as the decimal 1 rather than 100, and `"0"` is
trimmed to the empty string and rejected with a parse error — even though
both are valid decimal literals on their own. -/
theorem c10_trim_strips_leading_zeros :
    trimMatches '0' ['1', '0', '0'] = ['1'] ∧
    decimalFromStr ['1', '0', '0'] = some (decimalSerialize false 0 100) ∧
    decimalFromStr ['0'] = some (decimalSerialize false 0 0) ∧
    Packer.load Packer.new ['1', '0', '0'] =
      Except.ok (Packer.new.load_decimal (decimalSerialize false 0 1)) ∧
    decimalSerialize false 0 1 ≠ decimalSerialize false 0 100 ∧
    Packer.load Packer.new ['0'] = Except.error () :=
  ⟨by decide, by decide, by decide, rfl, by decide, rfl⟩

/-- A 256-value chunk with varying decimals whose lanes 0, 2 and 3 are
constant while lane 1 varies (the shape of the repository test's data). -/
def c8input : List Bytes16 :=
  (List.replicate 64 [dec887485, dec887514, dec887499, dec887498]).flatten

theorem c8_constant_lane_zero_width_witness :
    ((runLoad c8input Packer.new).pack).packed.blocks0 = [⟨0, 512, []⟩] ∧
    ((runLoad c8input Packer.new).pack).packed.blocks2 = [⟨0, 0, []⟩] :=
  ⟨(c8_constant_lane_zero_width c8input (by decide)).1 512 (by decide),
   (c8_constant_lane_zero_width c8input (by decide)).2.2.1 0 (by decide)⟩

end Floatpack
